import Mathlib

/-!
Shallow embedding of the Game-of-Life engine in `src/lib.rs` of
`rust-life-game`, together with proofs of the specification claims.

Modelling conventions:
* `u8` cell values become `Nat` (`LIVE = 1`, `DEAD = 0`); sums of at most
  eight indicator values never overflow `u8`, so plain `Nat` is faithful.
* `Vec<Vec<u8>>` becomes `List (List Nat)`.
* Rust panics (index out of bounds, `Option::unwrap` on `None`, unsigned
  underflow of `usize - 1` on a zero dimension) are modelled as `Option`
  failure (`none`).
-/

namespace RustLifeGame

/-- `type Value = u8;`, modelled as `Nat`. -/
abbrev Value := Nat

/-- `type Cells = Vec<Vec<Value>>;` -/
abbrev Cells := List (List Value)

/-- `const LIVE: Value = 1;` -/
def LIVE : Value := 1

/-- `const DEAD: Value = 0;` -/
def DEAD : Value := 0

/-- The `LifeGame` struct: a width, a height and the matrix of cells. -/
structure LifeGame where
  width : Nat
  height : Nat
  cells : Cells
deriving DecidableEq, Repr

/-- Rust inclusive range `a..=b`, as the list `[a, a+1, ..., b]`
(empty when `b < a`). -/
def rangeIncl (a b : Nat) : List Nat :=
  (List.range (b + 1 - a)).map (a + ·)

/-- Reading `cells[y][x]`; `none` models the index-out-of-bounds panic. -/
def readCell (cells : Cells) (x y : Nat) : Option Value :=
  (cells.get? y).bind fun row => row.get? x

/-- Runs a panicking computation over every element of a list in order,
collecting the results; `none` as soon as one element fails. -/
def collectSome {α β : Type} (f : α → Option β) : List α → Option (List β)
  | [] => some []
  | a :: l =>
    match f a, collectSome f l with
    | some b, some bs => some (b :: bs)
    | _, _ => none

/-- Rust `Iterator::min` over a list of `usize`:
`none` on the empty list, otherwise the minimum. -/
def iterMin : List Nat → Option Nat
  | [] => none
  | a :: l =>
    match iterMin l with
    | none => some a
    | some b => some (min a b)

/-- `LifeGame::new(width, height)`: an all-`DEAD` grid. -/
def LifeGame.new (width height : Nat) : LifeGame :=
  { width := width
    height := height
    cells := (List.range height).map fun _ => (List.range width).map fun _ => DEAD }

/-- `LifeGame::from(input)`.  `input.iter().map(|row| row.len()).min().unwrap()`
panics when `input` is empty, modelled by `none`; otherwise every row is
truncated (`take`) to the minimum row length. -/
def LifeGame.fromInput (input : List (List Value)) : Option LifeGame :=
  match iterMin (input.map List.length) with
  | none => none
  | some width =>
    some { width := width
           height := input.length
           cells := input.map fun row => row.take width }

/-- `LifeGame::set_alives(points)`: sets `cells[y][x] = LIVE` for each point in
order; `none` models the index-out-of-bounds panic. -/
def LifeGame.set_alives : LifeGame → List (Nat × Nat) → Option LifeGame
  | g, [] => some g
  | g, (x, y) :: rest =>
    match g.cells.get? y with
    | none => none
    | some row =>
      if x < row.length then
        LifeGame.set_alives { g with cells := g.cells.set y (row.set x LIVE) } rest
      else none

/-- `LifeGame::get_cells`: the boolean view, `true` exactly at `LIVE` cells. -/
def LifeGame.get_cells (g : LifeGame) : List (List Bool) :=
  g.cells.map fun row => row.map fun c => c == LIVE

/-- The `ys`/`xs`/filter pipeline of `LifeGame::count_alives`: the clamped
ranges `(if y == 0 { 0 } else { y - 1 })..=min(y + 1, height - 1)` (and
analogously for `x`), paired up and with the centre `(x, y)` removed. -/
def neighborList (width height x y : Nat) : List (Nat × Nat) :=
  (((rangeIncl (if y = 0 then 0 else y - 1) (min (y + 1) (height - 1))).flatMap fun b =>
    (rangeIncl (if x = 0 then 0 else x - 1) (min (x + 1) (width - 1))).map fun a =>
      (a, b)).filter fun p => p != (x, y))

/-- `LifeGame::count_alives(x, y)`.  The guard models the `usize` underflow of
`self.height - 1` / `self.width - 1` on a zero dimension; cell reads are the
panicking index expressions `self.cells[y][x]`. -/
def LifeGame.count_alives (g : LifeGame) (x y : Nat) : Option Nat :=
  if g.height = 0 ∨ g.width = 0 then none
  else
    (collectSome (fun p => readCell g.cells p.1 p.2)
        (neighborList g.width g.height x y)).map fun vs =>
      (vs.map fun c => if c = LIVE then 1 else 0).sum

/-- The `match` of `LifeGame::to_next_cell`:
`(DEAD, 3) | (LIVE, 2) | (LIVE, 3) => LIVE`, everything else `DEAD`. -/
def nextCellRule (cell : Value) (n : Nat) : Value :=
  match cell, n with
  | 0, 3 => LIVE
  | 1, 2 => LIVE
  | 1, 3 => LIVE
  | _, _ => DEAD

/-- `LifeGame::to_next_cell(cell, x, y)`: the Conway rule applied to one cell,
via the neighbour count of the current generation. -/
def LifeGame.to_next_cell (g : LifeGame) (cell : Value) (x y : Nat) : Option Value :=
  (g.count_alives x y).map fun n => nextCellRule cell n

/-- `LifeGame::to_next_generation_cells`: the whole next generation, computed
cell by cell from the current `cells` (the immutable snapshot). -/
def LifeGame.to_next_generation_cells (g : LifeGame) : Option Cells :=
  collectSome
    (fun p => collectSome (fun q => g.to_next_cell q.2 q.1 p.1) p.2.enum)
    g.cells.enum

/-- `LifeGame::is_same_cells(a, b)`: length check plus pointwise zip check. -/
def LifeGame.is_same_cells (a b : Cells) : Bool :=
  a.length == b.length &&
    (a.zip b).all fun r =>
      r.1.length == r.2.length && (r.1.zip r.2).all fun c => c.1 == c.2

/-- `LifeGame::next`: replaces `cells` by the next generation and reports
`some ()` ("changed") or `none` ("stable").  The outer `Option` models the
panic-freedom of the computation itself. -/
def LifeGame.next (g : LifeGame) : Option (Option Unit × LifeGame) :=
  (g.to_next_generation_cells).map fun nxt =>
    (if LifeGame.is_same_cells g.cells nxt then none else some (),
     { g with cells := nxt })

/-- `n` successive calls of `LifeGame::next`, keeping only the final state. -/
def LifeGame.nextN : LifeGame → Nat → Option LifeGame
  | g, 0 => some g
  | g, n + 1 =>
    match g.next with
    | none => none
    | some p => LifeGame.nextN p.2 n

/-- The cell value stored at column `x` of row `y` (defaulting to `DEAD`). -/
def cellAt (cells : Cells) (x y : Nat) : Value :=
  (cells.getD y []).getD x DEAD

/-- The shape invariant of the spec: `cells.length == height`, every row has
length `width`, and every cell value is `DEAD` or `LIVE`. -/
def LifeGame.Inv (g : LifeGame) : Prop :=
  g.cells.length = g.height ∧
    (∀ row ∈ g.cells, row.length = g.width) ∧
    ∀ row ∈ g.cells, ∀ c ∈ row, c = DEAD ∨ c = LIVE

instance (g : LifeGame) : Decidable g.Inv := by
  unfold LifeGame.Inv; infer_instance

/-- Modelled from the spec: the in-bounds positions of the 3×3 block around
`(x, y)`, clamped to the grid, excluding `(x, y)` itself — the "potential
neighbours" of the cell. -/
def neighborPositions (width height x y : Nat) : Finset (Nat × Nat) :=
  (Finset.range width ×ˢ Finset.range height).filter fun p =>
    p ≠ (x, y) ∧ x - 1 ≤ p.1 ∧ p.1 ≤ x + 1 ∧ y - 1 ≤ p.2 ∧ p.2 ≤ y + 1

/-- Modelled from the spec: the live-neighbour count of `(x, y)` — the number
of `LIVE` cells among the potential neighbour positions. -/
def specNeighborCount (cells : Cells) (width height x y : Nat) : Nat :=
  ((neighborPositions width height x y).filter fun p =>
    cellAt cells p.1 p.2 = LIVE).card

/-- The successor generation described pointwise: the cell at `(x, y)` is
`nextCellRule` of the old cell value and its clamped live-neighbour count. -/
def nextGen (g : LifeGame) : Cells :=
  g.cells.enum.map fun p =>
    p.2.enum.map fun q =>
      nextCellRule q.2 (specNeighborCount g.cells g.width g.height q.1 p.1)

/-- A 3×3 vertical blinker, used as a concrete witness grid. -/
def gBlinker : LifeGame :=
  { width := 3, height := 3, cells := [[0, 1, 0], [0, 1, 0], [0, 1, 0]] }

/-- The blinker's successor, the horizontal bar. -/
def gBlinker2 : LifeGame :=
  { width := 3, height := 3, cells := [[0, 0, 0], [1, 1, 1], [0, 0, 0]] }

/-- A 4×4 grid holding a still-life 2×2 block. -/
def gBlock : LifeGame :=
  { width := 4, height := 4,
    cells := [[0, 0, 0, 0], [0, 1, 1, 0], [0, 1, 1, 0], [0, 0, 0, 0]] }

/-! ### Basic lemmas about the embedding's building blocks -/

theorem getD_get? {α : Type} (l : List α) (i : Nat) (d : α) :
    l.getD i d = (l.get? i).getD d := rfl

theorem rangeIncl_mem {a b c : Nat} : c ∈ rangeIncl a b ↔ a ≤ c ∧ c ≤ b := by
  simp only [rangeIncl, List.mem_map, List.mem_range]
  constructor
  · rintro ⟨i, hi, rfl⟩; omega
  · rintro ⟨h1, h2⟩; exact ⟨c - a, by omega, by omega⟩

theorem rangeIncl_nodup (a b : Nat) : (rangeIncl a b).Nodup :=
  List.Nodup.map (fun x y h => by omega) (List.nodup_range _)

theorem if_zero_sub (n : Nat) : (if n = 0 then 0 else n - 1) = n - 1 := by
  split <;> omega

theorem collectSome_eq_some {α β : Type} (f : α → Option β) (g : α → β) :
    ∀ l : List α, (∀ a ∈ l, f a = some (g a)) → collectSome f l = some (l.map g)
  | [], _ => rfl
  | a :: l, h => by
    have ha := h a (List.mem_cons_self a l)
    have hl := collectSome_eq_some f g l fun x hx => h x (List.mem_cons_of_mem a hx)
    simp [collectSome, ha, hl]

theorem iterMin_eq_none : ∀ l : List Nat, iterMin l = none ↔ l = []
  | [] => by simp [iterMin]
  | a :: l => by
    simp only [iterMin]
    cases iterMin l <;> simp

theorem iterMin_spec : ∀ l : List Nat, ∀ m, iterMin l = some m →
    m ∈ l ∧ ∀ x ∈ l, m ≤ x
  | [], m => by simp [iterMin]
  | a :: l, m => by
    simp only [iterMin]
    cases hl : iterMin l with
    | none =>
      intro h
      obtain rfl : a = m := by simpa using h
      have : l = [] := (iterMin_eq_none l).mp hl
      subst this
      simp
    | some b =>
      intro h
      obtain rfl : min a b = m := by simpa using h
      obtain ⟨hb1, hb2⟩ := iterMin_spec l b hl
      constructor
      · rcases Nat.le_total a b with hab | hab
        · simp [Nat.min_eq_left hab]
        · right; rw [Nat.min_eq_right hab]; exact hb1
      · intro x hx
        rcases List.mem_cons.mp hx with rfl | hx
        · exact Nat.min_le_left _ _
        · exact le_trans (Nat.min_le_right _ _) (hb2 x hx)

theorem sum_indicator {α : Type} (p : α → Prop) [DecidablePred p] :
    ∀ l : List α,
      ((l.map fun a => if p a then (1 : Nat) else 0).sum) =
        (l.filter fun a => decide (p a)).length
  | [] => rfl
  | a :: l => by
    simp only [List.map_cons, List.sum_cons, List.filter_cons, sum_indicator p l]
    by_cases h : p a <;> simp [h, Nat.add_comm]

theorem nodup_pairs (xs ys : List Nat) (hx : xs.Nodup) (hy : ys.Nodup) :
    (ys.flatMap fun b => xs.map fun a => (a, b)).Nodup := by
  induction ys with
  | nil => exact List.nodup_nil
  | cons b ys ih =>
    rcases List.nodup_cons.mp hy with ⟨hbn, hys⟩
    refine List.Nodup.append (List.Nodup.map ?_ hx) (ih hys) ?_
    · intro a1 a2 h; exact congrArg Prod.fst h
    · intro z hz1 hz2
      simp only [List.mem_map] at hz1
      obtain ⟨a, -, rfl⟩ := hz1
      change _ ∈ ys.flatMap (fun b => xs.map fun a => (a, b)) at hz2
      simp only [List.mem_flatMap, List.mem_map] at hz2
      obtain ⟨b', hb', a', -, heq⟩ := hz2
      injection heq with h1 h2
      subst h2
      exact hbn hb'

/-! ### Reading cells under the shape invariant -/

theorem cellAt_of_get? {cells : Cells} {row : List Value} {x y : Nat}
    (hrow : cells.get? y = some row) : cellAt cells x y = row.getD x DEAD := by
  show ((cells.get? y).getD []).getD x DEAD = row.getD x DEAD
  rw [hrow, Option.getD_some]

theorem readCell_of_inv {g : LifeGame} (hInv : g.Inv) {x y : Nat}
    (hx : x < g.width) (hy : y < g.height) :
    readCell g.cells x y = some (cellAt g.cells x y) := by
  obtain ⟨hlen, hrow, -⟩ := hInv
  have hy' : y < g.cells.length := by omega
  have h1 : g.cells.get? y = some (g.cells.get ⟨y, hy'⟩) := List.get?_eq_get hy'
  have hx' : x < (g.cells.get ⟨y, hy'⟩).length := by
    rw [hrow _ (g.cells.get_mem _ _)]; exact hx
  have h2 : (g.cells.get ⟨y, hy'⟩).get? x =
      some ((g.cells.get ⟨y, hy'⟩).get ⟨x, hx'⟩) := List.get?_eq_get hx'
  rw [cellAt_of_get? h1, getD_get?, h2, Option.getD_some]
  show (g.cells.get? y).bind (fun row => row.get? x) = _
  rw [h1]
  exact h2

theorem cellAt_binary {g : LifeGame} (hInv : g.Inv) {x y : Nat}
    (hx : x < g.width) (hy : y < g.height) :
    cellAt g.cells x y = DEAD ∨ cellAt g.cells x y = LIVE := by
  have h := readCell_of_inv hInv hx hy
  obtain ⟨-, -, hval⟩ := hInv
  unfold readCell at h
  cases hr : g.cells.get? y with
  | none => rw [hr] at h; simp at h
  | some row =>
    rw [hr] at h
    simp only [Option.some_bind] at h
    exact hval row (List.get?_mem hr) _ (List.get?_mem h)

/-! ### The neighbour count agrees with the specification's clamped count -/

theorem neighborList_mem {w h x y : Nat} {p : Nat × Nat} :
    p ∈ neighborList w h x y ↔
      ((if y = 0 then 0 else y - 1) ≤ p.2 ∧ p.2 ≤ min (y + 1) (h - 1) ∧
       (if x = 0 then 0 else x - 1) ≤ p.1 ∧ p.1 ≤ min (x + 1) (w - 1) ∧ p ≠ (x, y)) := by
  simp only [neighborList, List.mem_filter, List.mem_flatMap, List.mem_map, rangeIncl_mem,
    bne_iff_ne, ne_eq]
  constructor
  · rintro ⟨⟨b, ⟨hb1, hb2⟩, a, ⟨ha1, ha2⟩, rfl⟩, hne⟩
    exact ⟨hb1, hb2, ha1, ha2, hne⟩
  · rintro ⟨h1, h2, h3, h4, h5⟩
    exact ⟨⟨p.2, ⟨h1, h2⟩, p.1, ⟨h3, h4⟩, rfl⟩, h5⟩

theorem neighborList_nodup (w h x y : Nat) : (neighborList w h x y).Nodup :=
  List.Nodup.filter _ (nodup_pairs _ _ (rangeIncl_nodup _ _) (rangeIncl_nodup _ _))

theorem neighborList_toFinset {w h x y : Nat} (hx : x < w) (hy : y < h) :
    (neighborList w h x y).toFinset = neighborPositions w h x y := by
  ext p
  obtain ⟨a, b⟩ := p
  simp only [List.mem_toFinset, neighborList_mem, neighborPositions, Finset.mem_filter,
    Finset.mem_product, Finset.mem_range, ne_eq, Prod.mk.injEq, not_and, if_zero_sub]
  omega

theorem count_alives_eq_spec {g : LifeGame} (hInv : g.Inv) {x y : Nat}
    (hx : x < g.width) (hy : y < g.height) :
    g.count_alives x y = some (specNeighborCount g.cells g.width g.height x y) := by
  have hcond : ¬(g.height = 0 ∨ g.width = 0) := by omega
  have hmem : ∀ p ∈ neighborList g.width g.height x y,
      readCell g.cells p.1 p.2 = some (cellAt g.cells p.1 p.2) := by
    intro p hp
    rw [neighborList_mem] at hp
    exact readCell_of_inv hInv (by omega) (by omega)
  unfold LifeGame.count_alives
  rw [if_neg hcond, collectSome_eq_some _ _ _ hmem]
  simp only [Option.map_some', List.map_map, Option.some.injEq, Function.comp_def]
  rw [sum_indicator (fun p : Nat × Nat => cellAt g.cells p.1 p.2 = LIVE)]
  rw [specNeighborCount, ← neighborList_toFinset hx hy,
    ← List.toFinset_card_of_nodup
      (List.Nodup.filter _ (neighborList_nodup g.width g.height x y)),
    List.toFinset_filter]
  simp only [decide_eq_true_eq]

/-! ### Size bounds on the potential-neighbour set -/

theorem card_pair_le (a b : Nat) : ({a, b} : Finset Nat).card ≤ 2 := by
  have h1 := Finset.card_insert_le a ({b} : Finset Nat)
  simp only [Finset.card_singleton] at h1
  omega

theorem card_triple_le (a b c : Nat) : ({a, b, c} : Finset Nat).card ≤ 3 := by
  have h1 := Finset.card_insert_le a ({b, c} : Finset Nat)
  have h2 := Finset.card_insert_le b ({c} : Finset Nat)
  simp only [Finset.card_singleton] at h2
  omega

theorem neighborPositions_card_le {w h x y : Nat} (hx : x < w) (hy : y < h)
    (A B : Finset Nat) (cA cB : Nat) (hcA : A.card ≤ cA) (hcB : B.card ≤ cB)
    (hA : ∀ a, x - 1 ≤ a → a ≤ x + 1 → a < w → a ∈ A)
    (hB : ∀ b, y - 1 ≤ b → b ≤ y + 1 → b < h → b ∈ B) :
    (neighborPositions w h x y).card ≤ cA * cB - 1 := by
  have hsub : neighborPositions w h x y ⊆ (A ×ˢ B).erase (x, y) := by
    intro p hp
    simp only [neighborPositions, Finset.mem_filter, Finset.mem_product,
      Finset.mem_range] at hp
    obtain ⟨⟨h1, h2⟩, hne, h3, h4, h5, h6⟩ := hp
    exact Finset.mem_erase.mpr ⟨hne, Finset.mem_product.mpr ⟨hA _ h3 h4 h1, hB _ h5 h6 h2⟩⟩
  have hmem : (x, y) ∈ A ×ˢ B :=
    Finset.mem_product.mpr ⟨hA x (by omega) (by omega) hx, hB y (by omega) (by omega) hy⟩
  have h1 := Finset.card_le_card hsub
  rw [Finset.card_erase_of_mem hmem, Finset.card_product] at h1
  have h2 := Nat.mul_le_mul hcA hcB
  omega

theorem neighborPositions_card_edge {w h x y : Nat} (hx : x < w) (hy : y < h)
    (hedge : x = 0 ∨ x + 1 = w ∨ y = 0 ∨ y + 1 = h) :
    (neighborPositions w h x y).card ≤ 5 := by
  have hxA : ∀ a, x - 1 ≤ a → a ≤ x + 1 → a < w → a ∈ ({x - 1, x, x + 1} : Finset Nat) := by
    intro a h1 h2 h3
    simp only [Finset.mem_insert, Finset.mem_singleton]
    omega
  have hyB : ∀ b, y - 1 ≤ b → b ≤ y + 1 → b < h → b ∈ ({y - 1, y, y + 1} : Finset Nat) := by
    intro b h1 h2 h3
    simp only [Finset.mem_insert, Finset.mem_singleton]
    omega
  rcases hedge with hx0 | hxw | hy0 | hyh
  · have := neighborPositions_card_le hx hy {x, x + 1} {y - 1, y, y + 1} 2 3
      (card_pair_le _ _) (card_triple_le _ _ _)
      (by intro a h1 h2 h3; simp only [Finset.mem_insert, Finset.mem_singleton]; omega) hyB
    omega
  · have := neighborPositions_card_le hx hy {x - 1, x} {y - 1, y, y + 1} 2 3
      (card_pair_le _ _) (card_triple_le _ _ _)
      (by intro a h1 h2 h3; simp only [Finset.mem_insert, Finset.mem_singleton]; omega) hyB
    omega
  · have := neighborPositions_card_le hx hy {x - 1, x, x + 1} {y, y + 1} 3 2
      (card_triple_le _ _ _) (card_pair_le _ _) hxA
      (by intro b h1 h2 h3; simp only [Finset.mem_insert, Finset.mem_singleton]; omega)
    omega
  · have := neighborPositions_card_le hx hy {x - 1, x, x + 1} {y - 1, y} 3 2
      (card_triple_le _ _ _) (card_pair_le _ _) hxA
      (by intro b h1 h2 h3; simp only [Finset.mem_insert, Finset.mem_singleton]; omega)
    omega

theorem neighborPositions_card_corner {w h x y : Nat} (hx : x < w) (hy : y < h)
    (hcx : x = 0 ∨ x + 1 = w) (hcy : y = 0 ∨ y + 1 = h) :
    (neighborPositions w h x y).card ≤ 3 := by
  have hA : ∀ a, x - 1 ≤ a → a ≤ x + 1 → a < w →
      a ∈ (if x = 0 then ({x, x + 1} : Finset Nat) else {x - 1, x}) := by
    intro a h1 h2 h3
    split <;> simp only [Finset.mem_insert, Finset.mem_singleton] <;> omega
  have hB : ∀ b, y - 1 ≤ b → b ≤ y + 1 → b < h →
      b ∈ (if y = 0 then ({y, y + 1} : Finset Nat) else {y - 1, y}) := by
    intro b h1 h2 h3
    split <;> simp only [Finset.mem_insert, Finset.mem_singleton] <;> omega
  have hcA : (if x = 0 then ({x, x + 1} : Finset Nat) else {x - 1, x}).card ≤ 2 := by
    split <;> exact card_pair_le _ _
  have hcB : (if y = 0 then ({y, y + 1} : Finset Nat) else {y - 1, y}).card ≤ 2 := by
    split <;> exact card_pair_le _ _
  have := neighborPositions_card_le hx hy _ _ 2 2 hcA hcB hA hB
  omega

/-! ### The next generation, as a pure value -/

theorem nextCellRule_binary (c n : Nat) :
    nextCellRule c n = DEAD ∨ nextCellRule c n = LIVE := by
  unfold nextCellRule
  split <;> simp [DEAD, LIVE]

theorem nextCellRule_eq_ite (c n : Nat) (hc : c = DEAD ∨ c = LIVE) :
    nextCellRule c n =
      if (c = DEAD ∧ n = 3) ∨ (c = LIVE ∧ (n = 2 ∨ n = 3)) then LIVE else DEAD := by
  rcases hc with rfl | rfl <;> rcases n with _ | _ | _ | _ | m <;>
    simp [nextCellRule, DEAD, LIVE]

theorem to_next_generation_eq {g : LifeGame} (hInv : g.Inv) :
    g.to_next_generation_cells = some (nextGen g) := by
  unfold LifeGame.to_next_generation_cells nextGen
  apply collectSome_eq_some
  intro p hp
  obtain ⟨y, row⟩ := p
  have hy : g.cells.get? y = some row := by
    rw [List.get?_eq_getElem?]
    exact List.mem_enum_iff_getElem?.mp hp
  have hy' : y < g.height := by
    have h1 := (List.get?_eq_some.mp hy).choose
    have h2 := hInv.1
    omega
  apply collectSome_eq_some
  intro q hq
  obtain ⟨x, c⟩ := q
  have hxc : row.get? x = some c := by
    rw [List.get?_eq_getElem?]
    exact List.mem_enum_iff_getElem?.mp hq
  have hx' : x < g.width := by
    have h1 := (List.get?_eq_some.mp hxc).choose
    have h2 := hInv.2.1 row (List.get?_mem hy)
    omega
  unfold LifeGame.to_next_cell
  rw [count_alives_eq_spec hInv hx' hy']
  rfl

theorem nextGen_length (g : LifeGame) : (nextGen g).length = g.cells.length := by
  simp [nextGen]

theorem nextGen_row_length {g : LifeGame} (hInv : g.Inv) :
    ∀ row ∈ nextGen g, row.length = g.width := by
  intro row hr
  simp only [nextGen, List.mem_map] at hr
  obtain ⟨⟨y, row₀⟩, hmem, rfl⟩ := hr
  rw [List.length_map, List.enum_length]
  show row₀.length = g.width
  have h : g.cells[y]? = some row₀ := List.mem_enum_iff_getElem?.mp hmem
  refine hInv.2.1 row₀ (List.get?_mem (n := y) ?_)
  rw [List.get?_eq_getElem?]
  exact h

theorem nextGen_binary (g : LifeGame) :
    ∀ row ∈ nextGen g, ∀ c ∈ row, c = DEAD ∨ c = LIVE := by
  intro row hr c hc
  simp only [nextGen, List.mem_map] at hr
  obtain ⟨p, -, rfl⟩ := hr
  simp only [List.mem_map] at hc
  obtain ⟨q, -, rfl⟩ := hc
  exact nextCellRule_binary _ _

theorem cellAt_eq_getElem? (cells : Cells) (x y : Nat) :
    cellAt cells x y = ((cells[y]?).getD [])[x]?.getD DEAD := by
  rw [cellAt, getD_get?, getD_get?, List.get?_eq_getElem?, List.get?_eq_getElem?]

theorem cellAt_nextGen {g : LifeGame} (hInv : g.Inv) {x y : Nat}
    (hx : x < g.width) (hy : y < g.height) :
    cellAt (nextGen g) x y =
      nextCellRule (cellAt g.cells x y)
        (specNeighborCount g.cells g.width g.height x y) := by
  have hy' : y < g.cells.length := by have := hInv.1; omega
  have h1 : g.cells[y]? = some g.cells[y] := List.getElem?_eq_getElem hy'
  have hx' : x < g.cells[y].length := by
    rw [hInv.2.1 _ (List.getElem_mem hy')]; exact hx
  have h2 : (g.cells[y])[x]? = some (g.cells[y])[x] := List.getElem?_eq_getElem hx'
  have hng : (nextGen g)[y]? = some ((g.cells[y]).enum.map fun q =>
      nextCellRule q.2 (specNeighborCount g.cells g.width g.height q.1 y)) := by
    rw [nextGen, List.getElem?_map, List.getElem?_enum, h1]
    rfl
  rw [cellAt_eq_getElem?, cellAt_eq_getElem?, hng, h1, Option.getD_some, Option.getD_some,
    List.getElem?_map, List.getElem?_enum, h2]
  rfl

/-! ### `is_same_cells` decides list equality, and `next` -/

theorem row_same_iff : ∀ r1 r2 : List Value,
    (r1.length == r2.length && (r1.zip r2).all fun c => c.1 == c.2) = true ↔ r1 = r2
  | [], [] => by simp
  | [], b :: m => by simp
  | a :: l, [] => by simp
  | a :: l, b :: m => by
    have ih := row_same_iff l m
    simp only [Bool.and_eq_true, beq_iff_eq] at ih ⊢
    simp only [List.length_cons, List.zip_cons_cons, List.all_cons, Bool.and_eq_true,
      beq_iff_eq, List.cons.injEq]
    constructor
    · rintro ⟨hlen, hab, hall⟩
      exact ⟨hab, ih.mp ⟨by omega, hall⟩⟩
    · rintro ⟨rfl, rfl⟩
      exact ⟨rfl, rfl, (ih.mpr rfl).2⟩

theorem is_same_cells_iff : ∀ a b : Cells, LifeGame.is_same_cells a b = true ↔ a = b
  | [], [] => by simp [LifeGame.is_same_cells]
  | [], r :: m => by simp [LifeGame.is_same_cells]
  | r :: l, [] => by simp [LifeGame.is_same_cells]
  | r :: l, s :: m => by
    have ih := is_same_cells_iff l m
    simp only [LifeGame.is_same_cells, Bool.and_eq_true, beq_iff_eq] at ih ⊢
    simp only [List.length_cons, List.zip_cons_cons, List.all_cons, Bool.and_eq_true,
      beq_iff_eq, List.cons.injEq]
    constructor
    · rintro ⟨hlen, hrs, hall⟩
      exact ⟨row_same_iff r s |>.mp (by simp [Bool.and_eq_true, beq_iff_eq, hrs]),
        ih.mp ⟨by omega, hall⟩⟩
    · rintro ⟨rfl, rfl⟩
      refine ⟨rfl, ?_, (ih.mpr rfl).2⟩
      have := row_same_iff r r |>.mpr rfl
      simp only [Bool.and_eq_true, beq_iff_eq] at this
      exact ⟨rfl, this.2⟩

theorem next_eq {g : LifeGame} (hInv : g.Inv) :
    g.next = some
      ((if g.cells = nextGen g then none else some ()),
        { g with cells := nextGen g }) := by
  unfold LifeGame.next
  rw [to_next_generation_eq hInv, Option.map_some']
  by_cases h : g.cells = nextGen g
  · rw [if_pos h, if_pos (is_same_cells_iff _ _ |>.mpr h)]
  · rw [if_neg h, if_neg (fun hb => h (is_same_cells_iff _ _ |>.mp hb))]

/-! ### Extensionality for same-shape grids -/

theorem row_ext {w : Nat} {r1 r2 : List Value} (h1 : r1.length = w) (h2 : r2.length = w)
    (h : ∀ x, x < w → r1.getD x DEAD = r2.getD x DEAD) : r1 = r2 := by
  apply List.ext_get?
  intro n
  by_cases hn : n < w
  · have e1 : r1.get? n = some (r1.getD n DEAD) := by
      rw [getD_get?, List.get?_eq_get (by omega)]; rfl
    have e2 : r2.get? n = some (r2.getD n DEAD) := by
      rw [getD_get?, List.get?_eq_get (by omega)]; rfl
    rw [e1, e2, h n hn]
  · rw [List.get?_eq_none.mpr (by omega), List.get?_eq_none.mpr (by omega)]

theorem cells_ext {w h : Nat} {a b : Cells}
    (ha1 : a.length = h) (hb1 : b.length = h)
    (ha2 : ∀ row ∈ a, row.length = w) (hb2 : ∀ row ∈ b, row.length = w)
    (hcell : ∀ x y, x < w → y < h → cellAt a x y = cellAt b x y) : a = b := by
  apply List.ext_get?
  intro n
  by_cases hn : n < h
  · have e1 : a.get? n = some (a.getD n []) := by
      rw [getD_get?, List.get?_eq_get (by omega)]; rfl
    have e2 : b.get? n = some (b.getD n []) := by
      rw [getD_get?, List.get?_eq_get (by omega)]; rfl
    rw [e1, e2]
    congr 1
    refine row_ext (w := w) ?_ ?_ ?_
    · exact ha2 _ (List.get?_mem e1)
    · exact hb2 _ (List.get?_mem e2)
    · intro x hx
      have c1 : cellAt a x n = (a.getD n []).getD x DEAD := rfl
      have c2 : cellAt b x n = (b.getD n []).getD x DEAD := rfl
      rw [← c1, ← c2]
      exact hcell x n hx hn
  · rw [List.get?_eq_none.mpr (by omega), List.get?_eq_none.mpr (by omega)]

/-! ### Invariant establishment and preservation -/

theorem new_inv (w h : Nat) : (LifeGame.new w h).Inv := by
  refine ⟨?_, ?_, ?_⟩
  · simp [LifeGame.new]
  · intro row hr
    simp only [LifeGame.new, List.mem_map] at hr
    obtain ⟨a, ha, rfl⟩ := hr
    simp [LifeGame.new]
  · intro row hr c hc
    simp only [LifeGame.new, List.mem_map] at hr
    obtain ⟨a, ha, rfl⟩ := hr
    simp only [List.mem_map] at hc
    obtain ⟨b, hb, rfl⟩ := hc
    left; rfl

theorem nextGen_inv {g : LifeGame} (hInv : g.Inv) :
    ({ g with cells := nextGen g } : LifeGame).Inv := by
  refine ⟨?_, nextGen_row_length hInv, nextGen_binary g⟩
  show (nextGen g).length = g.height
  rw [nextGen_length]
  exact hInv.1

/-! ### `fromInput` -/

theorem fromInput_parts {input : List (List Value)} {g : LifeGame}
    (h : LifeGame.fromInput input = some g) :
    iterMin (input.map List.length) = some g.width ∧
      g.height = input.length ∧
      g.cells = input.map fun row => row.take g.width := by
  cases hmin : iterMin (input.map List.length) with
  | none => rw [LifeGame.fromInput, hmin] at h; simp at h
  | some w =>
    rw [LifeGame.fromInput, hmin] at h
    injection h with h'
    subst h'
    exact ⟨rfl, rfl, rfl⟩

theorem fromInput_eq_none_iff (input : List (List Value)) :
    LifeGame.fromInput input = none ↔ input = [] := by
  cases hmin : iterMin (input.map List.length) with
  | none =>
    have : input = [] := by simpa using (iterMin_eq_none _).mp hmin
    rw [LifeGame.fromInput, hmin]
    simp [this]
  | some w =>
    rw [LifeGame.fromInput, hmin]
    have : input ≠ [] := by
      intro hc
      subst hc
      simp [iterMin] at hmin
    simp [this]

theorem fromInput_width_min {input : List (List Value)} {g : LifeGame}
    (h : LifeGame.fromInput input = some g) :
    (∃ row ∈ input, row.length = g.width) ∧ ∀ row ∈ input, g.width ≤ row.length := by
  obtain ⟨hmin, -, -⟩ := fromInput_parts h
  obtain ⟨hmem, hle⟩ := iterMin_spec _ _ hmin
  constructor
  · simp only [List.mem_map] at hmem
    obtain ⟨row, hr, hrl⟩ := hmem
    exact ⟨row, hr, hrl⟩
  · intro row hr
    exact hle _ (List.mem_map_of_mem List.length hr)

theorem fromInput_shape {input : List (List Value)} {g : LifeGame}
    (h : LifeGame.fromInput input = some g) :
    g.cells.length = g.height ∧ ∀ row ∈ g.cells, row.length = g.width := by
  obtain ⟨hmin, hh, hc⟩ := fromInput_parts h
  obtain ⟨-, hle⟩ := fromInput_width_min h
  constructor
  · rw [hc, List.length_map, hh]
  · intro row hr
    rw [hc] at hr
    simp only [List.mem_map] at hr
    obtain ⟨row₀, hr₀, rfl⟩ := hr
    rw [List.length_take]
    exact Nat.min_eq_left (hle _ hr₀)

theorem fromInput_inv {input : List (List Value)} {g : LifeGame}
    (h : LifeGame.fromInput input = some g)
    (hbin : ∀ row ∈ input, ∀ c ∈ row, c = DEAD ∨ c = LIVE) : g.Inv := by
  obtain ⟨hlen, hshape⟩ := fromInput_shape h
  obtain ⟨-, hh, hc⟩ := fromInput_parts h
  refine ⟨hlen, hshape, ?_⟩
  intro row hr c hcmem
  rw [hc] at hr
  simp only [List.mem_map] at hr
  obtain ⟨row₀, hr₀, rfl⟩ := hr
  exact hbin row₀ hr₀ c (List.mem_of_mem_take hcmem)

theorem fromInput_cellAt {input : List (List Value)} {g : LifeGame}
    (h : LifeGame.fromInput input = some g) {x y : Nat}
    (hx : x < g.width) (hy : y < g.height) :
    cellAt g.cells x y = cellAt input x y := by
  obtain ⟨-, hh, hc⟩ := fromInput_parts h
  have hy' : y < input.length := by omega
  have h1 : input[y]? = some input[y] := List.getElem?_eq_getElem hy'
  rw [hc, cellAt_eq_getElem?, List.getElem?_map, h1, cellAt_eq_getElem?, h1]
  show ((input[y]).take g.width)[x]?.getD DEAD = (input[y])[x]?.getD DEAD
  rw [List.getElem?_take_of_lt hx]

/-! ### `get_cells` -/

theorem get_cells_length (g : LifeGame) : g.get_cells.length = g.cells.length := by
  simp [LifeGame.get_cells]

theorem get_cells_row_length {g : LifeGame}
    (hshape : ∀ row ∈ g.cells, row.length = g.width) :
    ∀ row ∈ g.get_cells, row.length = g.width := by
  intro row hr
  simp only [LifeGame.get_cells, List.mem_map] at hr
  obtain ⟨row₀, hr₀, rfl⟩ := hr
  rw [List.length_map]
  exact hshape row₀ hr₀

theorem get_cells_at {g : LifeGame}
    (hlen : g.cells.length = g.height)
    (hshape : ∀ row ∈ g.cells, row.length = g.width) {x y : Nat}
    (hx : x < g.width) (hy : y < g.height) :
    ((g.get_cells.getD y []).getD x false = true) ↔ cellAt g.cells x y = LIVE := by
  have hy' : y < g.cells.length := by omega
  have h1 : g.cells[y]? = some g.cells[y] := List.getElem?_eq_getElem hy'
  have hx' : x < (g.cells[y]).length := by
    rw [hshape _ (List.getElem_mem hy')]; exact hx
  have h2 : (g.cells[y])[x]? = some (g.cells[y])[x] := List.getElem?_eq_getElem hx'
  rw [getD_get?, getD_get?, List.get?_eq_getElem?, List.get?_eq_getElem?,
    LifeGame.get_cells, List.getElem?_map, h1, cellAt_eq_getElem?, h1]
  show ((List.map _ g.cells[y])[x]?.getD false = true) ↔ _
  rw [List.getElem?_map, h2]
  show ((g.cells[y])[x] == LIVE) = true ↔ (g.cells[y])[x]?.getD DEAD = LIVE
  rw [h2, Option.getD_some, beq_iff_eq]

/-! ### `set_alives` -/

theorem cellAt_set {cells : Cells} {row : List Value} {px py : Nat}
    (hrow : cells.get? py = some row) (hpx : px < row.length) (x y : Nat) :
    cellAt (cells.set py (row.set px LIVE)) x y =
      if x = px ∧ y = py then LIVE else cellAt cells x y := by
  have hpy : py < cells.length := (List.get?_eq_some.mp hrow).choose
  by_cases hy : y = py
  · subst hy
    have e1 : (cells.set y (row.set px LIVE)).get? y = some (row.set px LIVE) :=
      List.get?_set_eq_of_lt _ hpy
    rw [cellAt_of_get? e1]
    by_cases hx : x = px
    · subst hx
      rw [if_pos ⟨rfl, rfl⟩, getD_get?, List.get?_set_eq_of_lt _ hpx, Option.getD_some]
    · rw [if_neg (fun hc => hx hc.1), cellAt_of_get? hrow, getD_get?, getD_get?,
        List.get?_set_ne _ _ (fun hc => hx hc.symm)]
  · have e1 : (cells.set py (row.set px LIVE)).get? y = cells.get? y :=
      List.get?_set_ne _ _ (fun hc => hy hc.symm)
    rw [if_neg (fun hc => hy hc.2)]
    show (((cells.set py (row.set px LIVE)).get? y).getD []).getD x DEAD =
      ((cells.get? y).getD []).getD x DEAD
    rw [e1]

theorem set_alives_spec : ∀ (points : List (Nat × Nat)) (g : LifeGame), g.Inv →
    (∀ p ∈ points, p.1 < g.width ∧ p.2 < g.height) →
    ∃ g', g.set_alives points = some g' ∧ g'.Inv ∧
      g'.width = g.width ∧ g'.height = g.height ∧
      ∀ x y, x < g.width → y < g.height →
        cellAt g'.cells x y = if (x, y) ∈ points then LIVE else cellAt g.cells x y
  | [], g, hInv, _ => ⟨g, rfl, hInv, rfl, rfl, by simp⟩
  | (px, py) :: rest, g, hInv, hpts => by
    obtain ⟨hpx, hpy⟩ := hpts (px, py) (List.mem_cons_self _ _)
    have hpy' : py < g.cells.length := by have := hInv.1; omega
    have hrow : g.cells.get? py = some g.cells[py] := by
      rw [List.get?_eq_getElem?]
      exact List.getElem?_eq_getElem hpy'
    have hlen : px < (g.cells[py]).length := by
      rw [hInv.2.1 _ (List.getElem_mem hpy')]; exact hpx
    have hInv1 : ({ g with cells := g.cells.set py ((g.cells[py]).set px LIVE) } :
        LifeGame).Inv := by
      refine ⟨?_, ?_, ?_⟩
      · show (g.cells.set py _).length = g.height
        rw [List.length_set]; exact hInv.1
      · intro row hr
        rcases List.mem_or_eq_of_mem_set hr with hr | rfl
        · exact hInv.2.1 row hr
        · show (List.set _ px LIVE).length = g.width
          rw [List.length_set]
          exact hInv.2.1 _ (List.getElem_mem hpy')
      · intro row hr c hc
        rcases List.mem_or_eq_of_mem_set hr with hr | rfl
        · exact hInv.2.2 row hr c hc
        · rcases List.mem_or_eq_of_mem_set hc with hc | rfl
          · exact hInv.2.2 _ (List.getElem_mem hpy') c hc
          · right; rfl
    obtain ⟨g', hg', hInv', hw, hh, hcell⟩ :=
      set_alives_spec rest
        { g with cells := g.cells.set py ((g.cells[py]).set px LIVE) } hInv1
        (fun p hp => hpts p (List.mem_cons_of_mem _ hp))
    refine ⟨g', ?_, hInv', hw, hh, ?_⟩
    · show LifeGame.set_alives g ((px, py) :: rest) = some g'
      rw [LifeGame.set_alives, hrow]
      simp only [if_pos hlen]
      exact hg'
    · intro x y hx hy
      rw [hcell x y hx hy, cellAt_set hrow hlen]
      by_cases hmem : (x, y) ∈ rest
      · rw [if_pos hmem, if_pos (List.mem_cons_of_mem _ hmem)]
      · rw [if_neg hmem]
        by_cases hpq : x = px ∧ y = py
        · obtain ⟨rfl, rfl⟩ := hpq
          rw [if_pos ⟨rfl, rfl⟩, if_pos (List.mem_cons_self _ _)]
        · have hni : (x, y) ∉ (px, py) :: rest := by
            intro hc
            rcases List.mem_cons.mp hc with hc | hc
            · injection hc with h1 h2
              exact hpq ⟨h1, h2⟩
            · exact hmem hc
          rw [if_neg hpq, if_neg hni]

/-! ## The claims -/

/-- C1: one call of `LifeGame::next` sets every in-bounds cell to `LIVE` iff
(it was `DEAD` with exactly 3 live neighbours) or (it was `LIVE` with 2 or 3
live neighbours), and to `DEAD` otherwise, the old value and the neighbour
count both being read from the pre-step generation `g.cells` only. -/
theorem claim_C1 (g : LifeGame) (hInv : g.Inv) (x y : Nat)
    (hx : x < g.width) (hy : y < g.height) :
    ∃ r g', g.next = some (r, g') ∧
      cellAt g'.cells x y =
        if (cellAt g.cells x y = DEAD ∧
              specNeighborCount g.cells g.width g.height x y = 3) ∨
           (cellAt g.cells x y = LIVE ∧
              (specNeighborCount g.cells g.width g.height x y = 2 ∨
               specNeighborCount g.cells g.width g.height x y = 3))
        then LIVE else DEAD := by
  refine ⟨_, _, next_eq hInv, ?_⟩
  show cellAt (nextGen g) x y = _
  rw [cellAt_nextGen hInv hx hy, nextCellRule_eq_ite _ _ (cellAt_binary hInv hx hy)]

/-- Witness for C1: the blinker's top-centre cell (a `LIVE` cell with one
live neighbour, which dies). -/
theorem claim_C1_witness :
    ∃ r g', gBlinker.next = some (r, g') ∧
      cellAt g'.cells 1 0 =
        if (cellAt gBlinker.cells 1 0 = DEAD ∧
              specNeighborCount gBlinker.cells gBlinker.width gBlinker.height 1 0 = 3) ∨
           (cellAt gBlinker.cells 1 0 = LIVE ∧
              (specNeighborCount gBlinker.cells gBlinker.width gBlinker.height 1 0 = 2 ∨
               specNeighborCount gBlinker.cells gBlinker.width gBlinker.height 1 0 = 3))
        then LIVE else DEAD :=
  claim_C1 gBlinker (by decide) 1 0 (by decide) (by decide)

/-- C2: for an in-bounds cell of a grid with positive dimensions, the code's
`count_alives` returns exactly the number of `LIVE` cells among the in-bounds
positions of the clamped 3×3 block around the cell (the cell itself excluded),
and the potential-neighbour set has at most 5 elements for an edge cell and at
most 3 for a corner cell. -/
theorem claim_C2 (g : LifeGame) (hInv : g.Inv) (x y : Nat)
    (hw : 1 ≤ g.width) (hh : 1 ≤ g.height)
    (hx : x < g.width) (hy : y < g.height) :
    g.count_alives x y = some (specNeighborCount g.cells g.width g.height x y) ∧
    ((x = 0 ∨ x + 1 = g.width ∨ y = 0 ∨ y + 1 = g.height) →
      (neighborPositions g.width g.height x y).card ≤ 5) ∧
    (((x = 0 ∨ x + 1 = g.width) ∧ (y = 0 ∨ y + 1 = g.height)) →
      (neighborPositions g.width g.height x y).card ≤ 3) :=
  ⟨count_alives_eq_spec hInv hx hy,
   fun he => neighborPositions_card_edge hx hy he,
   fun hc => neighborPositions_card_corner hx hy hc.1 hc.2⟩

/-- Witness for C2 at the blinker's top-left corner. -/
theorem claim_C2_witness :
    gBlinker.count_alives 0 0 =
        some (specNeighborCount gBlinker.cells gBlinker.width gBlinker.height 0 0) ∧
    ((0 = 0 ∨ 0 + 1 = gBlinker.width ∨ 0 = 0 ∨ 0 + 1 = gBlinker.height) →
      (neighborPositions gBlinker.width gBlinker.height 0 0).card ≤ 5) ∧
    (((0 = 0 ∨ 0 + 1 = gBlinker.width) ∧ (0 = 0 ∨ 0 + 1 = gBlinker.height)) →
      (neighborPositions gBlinker.width gBlinker.height 0 0).card ≤ 3) :=
  claim_C2 gBlinker (by decide) 0 0 (by decide) (by decide) (by decide) (by decide)

/-- C3: `LifeGame::next` stores the computed successor generation and returns
`some ()` iff the successor differs from the pre-step generation in at least
one cell, `none` iff every cell is unchanged. -/
theorem claim_C3 (g : LifeGame) (hInv : g.Inv) :
    ∃ r g', g.next = some (r, g') ∧
      g.to_next_generation_cells = some g'.cells ∧
      (r = some () ↔ ∃ x y, x < g.width ∧ y < g.height ∧
        cellAt g'.cells x y ≠ cellAt g.cells x y) ∧
      (r = none ↔ ∀ x y, x < g.width → y < g.height →
        cellAt g'.cells x y = cellAt g.cells x y) := by
  have hpt : (∀ x y, x < g.width → y < g.height →
      cellAt (nextGen g) x y = cellAt g.cells x y) ↔ nextGen g = g.cells := by
    constructor
    · intro hcell
      exact cells_ext (w := g.width) (h := g.height)
        (by rw [nextGen_length]; exact hInv.1) hInv.1
        (nextGen_row_length hInv) hInv.2.1 hcell
    · intro h x y hx hy
      rw [h]
  refine ⟨_, _, next_eq hInv, to_next_generation_eq hInv, ?_, ?_⟩
  · show (if g.cells = nextGen g then none else some ()) = some () ↔
      ∃ x y, x < g.width ∧ y < g.height ∧ cellAt (nextGen g) x y ≠ cellAt g.cells x y
    by_cases h : g.cells = nextGen g
    · rw [if_pos h]
      constructor
      · intro hc
        exact absurd hc (by simp)
      · rintro ⟨x, y, hx, hy, hne⟩
        exact absurd (by rw [← h]) hne
    · rw [if_neg h]
      constructor
      · intro _
        have hne : ¬ ∀ x y, x < g.width → y < g.height →
            cellAt (nextGen g) x y = cellAt g.cells x y :=
          fun hall => h (hpt.mp hall).symm
        push_neg at hne
        obtain ⟨x, y, hx, hy, hd⟩ := hne
        exact ⟨x, y, hx, hy, hd⟩
      · intro _
        rfl
  · show (if g.cells = nextGen g then none else some ()) = none ↔
      ∀ x y, x < g.width → y < g.height → cellAt (nextGen g) x y = cellAt g.cells x y
    by_cases h : g.cells = nextGen g
    · rw [if_pos h]
      exact ⟨fun _ => hpt.mpr h.symm, fun _ => rfl⟩
    · rw [if_neg h]
      constructor
      · intro hc
        exact absurd hc (by simp)
      · intro hall
        exact absurd (hpt.mp hall).symm h

/-- Witness for C3 on the blinker. -/
theorem claim_C3_witness :
    ∃ r g', gBlinker.next = some (r, g') ∧
      gBlinker.to_next_generation_cells = some g'.cells ∧
      (r = some () ↔ ∃ x y, x < gBlinker.width ∧ y < gBlinker.height ∧
        cellAt g'.cells x y ≠ cellAt gBlinker.cells x y) ∧
      (r = none ↔ ∀ x y, x < gBlinker.width → y < gBlinker.height →
        cellAt g'.cells x y = cellAt gBlinker.cells x y) :=
  claim_C3 gBlinker (by decide)

/-- C4: construction from a seed fails exactly on the empty seed: the code's
`.min().unwrap()` panic on zero rows is the spec's `EmptyInputError`, modelled
as the `none` result of `fromInput`, and every non-empty seed constructs. -/
theorem claim_C4 :
    LifeGame.fromInput [] = none ∧
      ∀ input : List (List Value), input ≠ [] →
        ∃ g, LifeGame.fromInput input = some g := by
  refine ⟨rfl, ?_⟩
  intro input hne
  cases hf : LifeGame.fromInput input with
  | none => exact absurd ((fromInput_eq_none_iff input).mp hf) hne
  | some g => exact ⟨g, rfl⟩

/-- Witness for C4: a concrete non-empty (jagged) seed constructs. -/
theorem claim_C4_witness :
    ([[1, 1, 1], [1, 1]] : List (List Value)) ≠ [] ∧
      ∃ g, LifeGame.fromInput [[1, 1, 1], [1, 1]] = some g :=
  ⟨by decide, claim_C4.2 [[1, 1, 1], [1, 1]] (by decide)⟩

/-- C5: for every non-empty seed, `fromInput` yields height = number of rows,
width = the minimum row length (witnessed by some row and a lower bound on
all rows), and every in-bounds cell equal to the corresponding seed cell
(columns beyond the shortest row are dropped). -/
theorem claim_C5 (input : List (List Value)) (hne : input ≠ []) :
    ∃ g, LifeGame.fromInput input = some g ∧
      g.height = input.length ∧
      (∃ row ∈ input, row.length = g.width) ∧
      (∀ row ∈ input, g.width ≤ row.length) ∧
      ∀ x y, x < g.width → y < g.height →
        cellAt g.cells x y = cellAt input x y := by
  cases hf : LifeGame.fromInput input with
  | none => exact absurd ((fromInput_eq_none_iff input).mp hf) hne
  | some g =>
    obtain ⟨-, hh, -⟩ := fromInput_parts hf
    exact ⟨g, rfl, hh, (fromInput_width_min hf).1, (fromInput_width_min hf).2,
      fun x y hx hy => fromInput_cellAt hf hx hy⟩

/-- Witness for C5: the jagged seed `[[1,1,1],[1,1]]` yields width 2 and the
third column of the first row is dropped. -/
theorem claim_C5_witness :
    (∃ g, LifeGame.fromInput [[1, 1, 1], [1, 1]] = some g ∧
      g.height = ([[1, 1, 1], [1, 1]] : List (List Value)).length ∧
      (∃ row ∈ ([[1, 1, 1], [1, 1]] : List (List Value)), row.length = g.width) ∧
      (∀ row ∈ ([[1, 1, 1], [1, 1]] : List (List Value)), g.width ≤ row.length) ∧
      ∀ x y, x < g.width → y < g.height →
        cellAt g.cells x y = cellAt [[1, 1, 1], [1, 1]] x y) ∧
    LifeGame.fromInput [[1, 1, 1], [1, 1]] =
      some { width := 2, height := 2, cells := [[1, 1], [1, 1]] } :=
  ⟨claim_C5 [[1, 1, 1], [1, 1]] (by decide), by decide⟩

/-- C6: if `next` reports "unchanged" (`none`), the grid was left bit-for-bit
identical, and every number of further `next` calls returns the same grid,
each of them again reporting "unchanged". -/
theorem claim_C6 (g g' : LifeGame) (hInv : g.Inv)
    (h : g.next = some (none, g')) :
    g' = g ∧ g.next = some (none, g) ∧ ∀ n, g.nextN n = some g := by
  have hne := next_eq hInv
  rw [h] at hne
  injection hne with hp
  injection hp with h1 h2
  have hcond : g.cells = nextGen g := by
    by_contra hc
    rw [if_neg hc] at h1
    exact absurd h1 (by simp)
  have hX : ({ g with cells := nextGen g } : LifeGame) = g := by
    rw [← hcond]
  have hg' : g' = g := by rw [h2, hX]
  have hfix : g.next = some (none, g) := by
    rw [next_eq hInv, if_pos hcond, hX]
  refine ⟨hg', hfix, ?_⟩
  intro n
  induction n with
  | zero => rfl
  | succ n ih =>
    show LifeGame.nextN g (n + 1) = some g
    rw [LifeGame.nextN, hfix]
    exact ih

/-- Witness for C6: the still-life 2×2 block. -/
theorem claim_C6_witness :
    gBlock = gBlock ∧ gBlock.next = some (none, gBlock) ∧
      ∀ n, gBlock.nextN n = some gBlock :=
  claim_C6 gBlock gBlock (by decide) (by decide)

/-- C7: `new` establishes the shape invariant; `fromInput` establishes it for
every binary seed it accepts; `set_alives` with in-bounds points and `next`
preserve it, and neither changes `width` or `height`. -/
theorem claim_C7 :
    (∀ w h, (LifeGame.new w h).Inv) ∧
    (∀ input g, LifeGame.fromInput input = some g →
      (∀ row ∈ input, ∀ c ∈ row, c = DEAD ∨ c = LIVE) → g.Inv) ∧
    (∀ (g : LifeGame) (points : List (Nat × Nat)) (g' : LifeGame),
      g.Inv → (∀ p ∈ points, p.1 < g.width ∧ p.2 < g.height) →
      g.set_alives points = some g' →
      g'.Inv ∧ g'.width = g.width ∧ g'.height = g.height) ∧
    (∀ (g : LifeGame) (r : Option Unit) (g' : LifeGame),
      g.Inv → g.next = some (r, g') →
      g'.Inv ∧ g'.width = g.width ∧ g'.height = g.height) := by
  refine ⟨new_inv, ?_, ?_, ?_⟩
  · intro input g h hbin
    exact fromInput_inv h hbin
  · intro g points g' hInv hpts hset
    obtain ⟨g'', hg'', hInv'', hw, hh, -⟩ := set_alives_spec points g hInv hpts
    rw [hset] at hg''
    injection hg'' with e
    rw [← e] at hInv'' hw hh
    exact ⟨hInv'', hw, hh⟩
  · intro g r g' hInv h
    have hne := next_eq hInv
    rw [h] at hne
    injection hne with hp
    injection hp with h1 h2
    rw [h2]
    exact ⟨nextGen_inv hInv, rfl, rfl⟩

/-- Witness for C7: an empty grid, and the blinker step. -/
theorem claim_C7_witness :
    (LifeGame.new 2 3).Inv ∧
      (gBlinker2.Inv ∧ gBlinker2.width = gBlinker.width ∧
        gBlinker2.height = gBlinker.height) :=
  ⟨claim_C7.1 2 3,
   claim_C7.2.2.2 gBlinker (some ()) gBlinker2 (by decide) (by decide)⟩

/-- C8: reading the boolean view right after construction from a seed yields
`true` at exactly the in-bounds positions whose seed cell is `LIVE`, `false`
elsewhere in the view; the view has one row per seed row, each of the
truncated width.  (In the embedding `get_cells` is a pure function of the
grid, so producing the view cannot mutate it.) -/
theorem claim_C8 (input : List (List Value)) (g : LifeGame)
    (h : LifeGame.fromInput input = some g) :
    g.get_cells.length = input.length ∧
      (∀ row ∈ g.get_cells, row.length = g.width) ∧
      ∀ x y, x < g.width → y < g.height →
        (((g.get_cells.getD y []).getD x false) = true ↔
          cellAt input x y = LIVE) := by
  obtain ⟨hlen, hshape⟩ := fromInput_shape h
  obtain ⟨-, hh, -⟩ := fromInput_parts h
  refine ⟨?_, get_cells_row_length hshape, ?_⟩
  · rw [get_cells_length, hlen, hh]
  · intro x y hx hy
    rw [get_cells_at hlen hshape hx hy, fromInput_cellAt h hx hy]

/-- Witness for C8 on the jagged seed `[[1,1,1],[1,1]]`. -/
theorem claim_C8_witness :
    (LifeGame.fromInput [[1, 1, 1], [1, 1]] =
        some { width := 2, height := 2, cells := [[1, 1], [1, 1]] }) ∧
    (({ width := 2, height := 2, cells := [[1, 1], [1, 1]] } :
        LifeGame).get_cells.length = ([[1, 1, 1], [1, 1]] : Cells).length ∧
      (∀ row ∈ ({ width := 2, height := 2, cells := [[1, 1], [1, 1]] } :
          LifeGame).get_cells,
        row.length = ({ width := 2, height := 2, cells := [[1, 1], [1, 1]] } :
          LifeGame).width) ∧
      ∀ x y, x < ({ width := 2, height := 2, cells := [[1, 1], [1, 1]] } :
          LifeGame).width →
        y < ({ width := 2, height := 2, cells := [[1, 1], [1, 1]] } :
          LifeGame).height →
        ((((({ width := 2, height := 2, cells := [[1, 1], [1, 1]] } :
            LifeGame).get_cells).getD y []).getD x false) = true ↔
          cellAt [[1, 1, 1], [1, 1]] x y = LIVE)) :=
  ⟨by decide, claim_C8 [[1, 1, 1], [1, 1]] _ (by decide)⟩

/-- C9: `set_alives` on in-bounds points succeeds, sets each listed cell to
`LIVE`, and leaves every unlisted cell and the `width`/`height` fields
unchanged. -/
theorem claim_C9 (g : LifeGame) (points : List (Nat × Nat)) (hInv : g.Inv)
    (hpts : ∀ p ∈ points, p.1 < g.width ∧ p.2 < g.height) :
    ∃ g', g.set_alives points = some g' ∧
      g'.width = g.width ∧ g'.height = g.height ∧
      ∀ x y, x < g.width → y < g.height →
        cellAt g'.cells x y =
          if (x, y) ∈ points then LIVE else cellAt g.cells x y := by
  obtain ⟨g', h1, -, h3, h4, h5⟩ := set_alives_spec points g hInv hpts
  exact ⟨g', h1, h3, h4, h5⟩

/-- Witness for C9: seeding the 2×2 block into an empty 4×4 grid. -/
theorem claim_C9_witness :
    ∃ g', (LifeGame.new 4 4).set_alives [(1, 1), (2, 1), (1, 2), (2, 2)] = some g' ∧
      g'.width = (LifeGame.new 4 4).width ∧ g'.height = (LifeGame.new 4 4).height ∧
      ∀ x y, x < (LifeGame.new 4 4).width → y < (LifeGame.new 4 4).height →
        cellAt g'.cells x y =
          if (x, y) ∈ [(1, 1), (2, 1), (1, 2), (2, 2)] then LIVE
          else cellAt (LifeGame.new 4 4).cells x y :=
  claim_C9 (LifeGame.new 4 4) [(1, 1), (2, 1), (1, 2), (2, 2)] (by decide) (by decide)

/-- C10: on every grid satisfying the shape invariant — including width-0 and
height-0 grids — `next` is total: it never hits the modelled `usize`
underflow of `count_alives` nor an out-of-bounds cell read, because
`count_alives` is only invoked at coordinates of existing cells. -/
theorem claim_C10 (g : LifeGame) (hInv : g.Inv) : ∃ p, g.next = some p :=
  ⟨_, next_eq hInv⟩

/-- Witness for C10 on degenerate grids of zero width or height. -/
theorem claim_C10_witness :
    (∃ p, (LifeGame.new 0 5).next = some p) ∧
      ∃ p, (LifeGame.new 7 0).next = some p :=
  ⟨claim_C10 (LifeGame.new 0 5) (by decide), claim_C10 (LifeGame.new 7 0) (by decide)⟩

end RustLifeGame
